import Mathlib

/-!
Verification of the volumetric-display control core.

This file gives a shallow embedding, in Lean, of the pure computational
content of four subsystems of the repository:

* the Art-Net raster serializer (src/artnet/lib.rs),
* the control-port double-buffered display diffing engine
  (src/control_port/control_port.rs),
* the LFO-to-effect mapping engine and its OSC sender loop (src/main.rs),
* the sender-monitor per-controller health state machine
  (src/sender_monitor/sender_monitor.rs),

and proves the specified properties about them.  Conventions of the
embedding: machine bytes and indices are modelled as natural numbers
(with explicit reduction modulo 2 to the 16 where u16 wrap-around matters);
f32 values are modelled as exact rational numbers (the float operations the
code performs on them are assignments, comparisons, one division by 127 and
one multiplication, so the rational model tracks the code structure
exactly); fallible or stateful code becomes explicit state passing.
-/

/-! ## Art-Net raster serializer (src/artnet/lib.rs) -/

/-- A raster cell, mirroring `struct RGB { red: u8, green: u8, blue: u8 }`.
The u8 fields are modelled as naturals (all constructed values are < 256). -/
structure RGB where
  red : ℕ
  green : ℕ
  blue : ℕ
deriving DecidableEq

/-- Mirrors `fn saturate_u8(value: f32) -> u8 { value.max(0.0).min(255.0) as u8 }`.
The clamp keeps the value in [0, 255], where the `as u8` cast truncates,
i.e. takes the floor of a nonnegative value. -/
def saturate_u8 (value : ℚ) : ℕ :=
  (⌊min (max value 0) 255⌋).toNat

/-- Little-endian byte pair of a u16 value, as produced by `to_le_bytes`.
Reducing each byte mod 256 makes the encoding depend only on the argument
modulo 2 to the 16, which models u16 wrap-around arithmetic. -/
def le16 (n : ℕ) : List ℕ :=
  [n % 256, n / 256 % 256]

/-- Big-endian byte pair of a u16 value, as produced by `to_be_bytes`. -/
def be16 (n : ℕ) : List ℕ :=
  [n / 256 % 256, n % 256]

/-- The 8-byte Art-Net packet identifier `b"Art-Net\x00"`. -/
def artnetId : List ℕ :=
  ("Art-Net".data.map Char.toNat) ++ [0]

/-- Mirrors `create_dmx_packet(universe, data)`: identifier, OpDmx opcode
0x5000 little-endian, protocol version 14 big-endian, zero sequence and
physical bytes, universe little-endian, payload length big-endian, payload. -/
def create_dmx_packet (univ : ℕ) (data : List ℕ) : List ℕ :=
  artnetId ++ le16 0x5000 ++ be16 14 ++ [0, 0] ++ le16 univ ++ be16 data.length ++ data

/-- Mirrors `create_sync_packet()`: identifier, OpSync opcode 0x5200
little-endian, protocol version 14 big-endian, two zero bytes. -/
def create_sync_packet : List ℕ :=
  artnetId ++ le16 0x5200 ++ be16 14 ++ [0, 0]

/-- Mirrors the default z-index enumeration `(0..length).step_by(channel_span)`.
For `span = 0` the Rust iterator panics; the claims assume a positive span. -/
def stepRange (length span : ℕ) : List ℕ :=
  (List.range ((length + span - 1) / span)).map (· * span)

/-- The three brightness-scaled saturated bytes pushed per raster cell. -/
def rgbBytes (brightness : ℚ) (c : RGB) : List ℕ :=
  [saturate_u8 ((c.red : ℚ) * brightness),
   saturate_u8 ((c.green : ℚ) * brightness),
   saturate_u8 ((c.blue : ℚ) * brightness)]

/-- The byte run assembled for layer `z` in `send_dmx_rust_raster_data`:
the slice `data[z*W*H .. (z+1)*W*H)` expanded to brightness-scaled bytes,
or nothing when the slice end exceeds the data length (the `continue`). -/
def layerBytes (width height : ℕ) (brightness : ℚ) (data : List RGB) (z : ℕ) : List ℕ :=
  if data.length < (z + 1) * width * height then []
  else ((data.drop (z * width * height)).take (width * height)).flatMap (rgbBytes brightness)

/-- Mirrors the chunking `while` loop: emit an OpDmx packet per chunk of at
most `cpu` bytes, incrementing the universe per chunk.  The source loops
forever when `channels_per_universe = 0`; the claims assume it positive, and
this model returns the empty list in that unreachable case. -/
def sendChunks (cpu : ℕ) (univ : ℕ) (bytes : List ℕ) : List (List ℕ) :=
  if h : bytes = [] ∨ cpu = 0 then []
  else
    create_dmx_packet univ (bytes.take (min bytes.length cpu)) ::
      sendChunks cpu (univ + 1) (bytes.drop (min bytes.length cpu))
termination_by bytes.length
decreasing_by
  have hb : bytes ≠ [] := fun hh => h (Or.inl hh)
  have hc : cpu ≠ 0 := fun hh => h (Or.inr hh)
  have h1 : 0 < bytes.length := List.length_pos.mpr hb
  simp only [List.length_drop]
  omega

/-- Partition a byte list into chunks of `cpu` bytes, final chunk shorter.
Used only to state the specified chunking characterization. -/
def chunkList (cpu : ℕ) (bytes : List ℕ) : List (List ℕ) :=
  if h : bytes = [] ∨ cpu = 0 then []
  else bytes.take cpu :: chunkList cpu (bytes.drop cpu)
termination_by bytes.length
decreasing_by
  have hb : bytes ≠ [] := fun hh => h (Or.inl hh)
  have hc : cpu ≠ 0 := fun hh => h (Or.inr hh)
  have h1 : 0 < bytes.length := List.length_pos.mpr hb
  simp only [List.length_drop]
  omega

/-- Pure model of `send_dmx_rust_raster_data`: the sequence of UDP packet
payloads sent for one frame.  For each enumerated layer the starting
universe is `(out_z / channel_span) * universes_per_layer + base_universe`
(u16 arithmetic; the encoding in `create_dmx_packet` reduces mod 2 to the 16),
then the layer bytes are chunked, and a single sync packet closes the frame. -/
def send_dmx_model (base_universe width height length : ℕ) (brightness : ℚ)
    (data : List RGB) (channels_per_universe universes_per_layer channel_span : ℕ)
    (z_indices : Option (List ℕ)) : List (List ℕ) :=
  ((z_indices.getD (stepRange length channel_span)).enum.foldl (fun acc p =>
    acc ++ sendChunks channels_per_universe
      (p.1 / channel_span * universes_per_layer + base_universe)
      (layerBytes width height brightness data p.2)) [])
  ++ [create_sync_packet]

/-- One OpDmx packet per chunk, the universe incrementing per chunk (used to
state the chunking characterization of the send loop). -/
def packetsFrom (u : ℕ) : List (List ℕ) → List (List ℕ)
  | [] => []
  | c :: rest => create_dmx_packet u c :: packetsFrom (u + 1) rest

/-- The two concrete raster cells of scenario S1. -/
def srcS1Data : List RGB :=
  [⟨10, 20, 30⟩, ⟨40, 50, 60⟩]

/-! ## Control-port display diffing engine (src/control_port/control_port.rs) -/

/-- The outbound control-port messages relevant to the display engine
(`OutgoingMessage::LcdClear` and `OutgoingMessage::LcdWrite`; the remaining
variants of the source enum are never produced by `commit_display`). -/
inductive OutgoingMessage where
  | noop
  | lcdClear
  | lcdWrite (x : ℕ) (y : ℕ) (text : List Char)
deriving DecidableEq

/-- A character buffer, mirroring `Vec<Vec<char>>`; the program always
holds 4 rows of 20 columns. -/
abbrev Buffer := List (List Char)

/-- Display width fixed at construction (`let width = 20`). -/
def displayWidth : ℕ := 20

/-- Display height fixed at construction (`let height = 4`). -/
def displayHeight : ℕ := 4

/-- The all-space 4 by 20 buffer both buffers start as. -/
def blankBuffer : Buffer :=
  List.replicate displayHeight (List.replicate displayWidth ' ')

/-- Read a buffer cell; the program only reads in-range cells of its
4 by 20 buffers, so the default is never observed there. -/
def getCell (buf : Buffer) (y x : ℕ) : Char :=
  (buf.getD y []).getD x ' '

/-- Build a 4 by 20 buffer from a cell function; this is the shape the
row/column copy loops in `commit_display` and `clear_display` produce. -/
def buildBuffer (f : ℕ → ℕ → Char) : Buffer :=
  (List.range displayHeight).map (fun y => (List.range displayWidth).map (fun x => f y x))

/-- Mirrors `clear_display`: every back-buffer cell becomes a space. -/
def clear_display (_back : Buffer) : Buffer :=
  buildBuffer (fun _ _ => ' ')

/-- The character-writing loop of `write_display`: write successive
characters from `text` starting at column `x`, stopping at the right edge. -/
def writeChars (row : List Char) (x : ℕ) (text : List Char) : List Char :=
  match text with
  | [] => row
  | c :: rest => if displayWidth ≤ x then row else writeChars (row.set x c) (x + 1) rest

/-- Mirrors `write_display(x, y, text)`: silent no-op when out of range,
otherwise writes into row `y` starting at column `x`, truncating at the
display width. -/
def write_display (back : Buffer) (x y : ℕ) (text : List Char) : Buffer :=
  if displayHeight ≤ y ∨ displayWidth ≤ x then back
  else back.set y (writeChars (back.getD y []) x text)

/-- Loop state of `find_contiguous_changes`: accumulated changes (most
recent first), the start of the open run, and `last_change_end`. -/
structure DiffState where
  rchanges : List (ℕ × ℕ)
  start : Option ℕ
  lastEnd : Option ℕ

/-- One iteration of the `for x in 0..width` loop of
`find_contiguous_changes`, with `d x` the changed-cell test at column x. -/
def diffStep (d : ℕ → Bool) (st : DiffState) (x : ℕ) : DiffState :=
  if d x then
    match st.start with
    | some _ => st
    | none =>
      match st.lastEnd, st.rchanges with
      | some e, (s0, _) :: rest =>
        if x - e ≤ 3 then
          ⟨(s0, min (x + 1) displayWidth) :: rest, none, some (min (x + 1) displayWidth)⟩
        else ⟨st.rchanges, some x, st.lastEnd⟩
      | _, _ => ⟨st.rchanges, some x, st.lastEnd⟩
  else
    match st.start with
    | some s => ⟨(s, x) :: st.rchanges, none, some x⟩
    | none => st

/-- The changed-run list computed from a changed-cell pattern: the loop over
all columns followed by the final flush of an open run. -/
def changesOfPattern (d : ℕ → Bool) : List (ℕ × ℕ) :=
  let st := (List.range displayWidth).foldl (diffStep d) ⟨[], none, none⟩
  (match st.start with
   | some s => (s, displayWidth) :: st.rchanges
   | none => st.rchanges).reverse

/-- Mirrors `find_contiguous_changes(front, back, y)`. -/
def find_contiguous_changes (front back : Buffer) (y : ℕ) : List (ℕ × ℕ) :=
  changesOfPattern (fun x => decide (getCell front y x ≠ getCell back y x))

/-- The half-open slice `row[s..e]` used to build an LcdWrite payload. -/
def rowSlice (row : List Char) (s e : ℕ) : List Char :=
  (row.drop s).take (e - s)

/-- Mirrors `commit_display`: if the back buffer is all spaces, emit one
LcdClear and blank the front buffer; otherwise emit one LcdWrite per
changed run per row and copy back into front.  Returns the emitted
messages and the new front buffer. -/
def commit_display (front back : Buffer) : List OutgoingMessage × Buffer :=
  if back.all (fun row => row.all (fun ch => ch = ' ')) then
    ([OutgoingMessage.lcdClear], buildBuffer (fun _ _ => ' '))
  else
    ((List.range displayHeight).flatMap (fun y =>
      (find_contiguous_changes front back y).map (fun c =>
        OutgoingMessage.lcdWrite c.1 y (rowSlice (back.getD y []) c.1 c.2))),
     buildBuffer (fun y x => getCell back y x))

/-- The changed-cell pattern of a row with exactly two maximal changed
ranges. -/
def twoRangePattern (a1 b1 a2 b2 : ℕ) : ℕ → Bool :=
  fun x => decide ((a1 ≤ x ∧ x < b1) ∨ (a2 ≤ x ∧ x < b2))

/-- The changed-cell pattern of a row with exactly one maximal changed
range. -/
def oneRangePattern (a b : ℕ) : ℕ → Bool :=
  fun x => decide (a ≤ x ∧ x < b)

/-- Scenario S2 front buffer: row 0 is ABCDEFGH padded with 12 spaces. -/
def s2Front : Buffer :=
  [("ABCDEFGH".data ++ List.replicate 12 ' '), List.replicate 20 ' ',
   List.replicate 20 ' ', List.replicate 20 ' ']

/-- Scenario S2 back buffer: row 0 is AXCDEYGH padded with 12 spaces. -/
def s2Back : Buffer :=
  [("AXCDEYGH".data ++ List.replicate 12 ' '), List.replicate 20 ' ',
   List.replicate 20 ' ', List.replicate 20 ' ']

/-- The S2 merged write payload XCDEY. -/
def s2Text : List Char :=
  "XCDEY".data

/-- The text of scenario S3. -/
def s3Text : List Char :=
  "Hi".data

/-- The counterexample text for the commit-minimality claim: it contains a
non-space character but starts with a space. -/
def spaceAText : List Char :=
  " A".data

/-- The single character A. -/
def textA : List Char :=
  "A".data

/-! ## LFO-to-effect mapping engine (src/main.rs) -/

/-- The shared mapping-engine state: the two bank atomics, the 32 by 32
mapping matrix, the 4 by 32 fader-override matrices, and the latest LFO
samples.  The matrices are modelled as total boolean/rational functions;
the program only ever touches indices inside the stated bounds. -/
structure MapState where
  lfoBank : ℕ
  effectBank : ℕ
  mapping : ℕ → ℕ → Bool
  faderActive : ℕ → ℕ → Bool
  faderValue : ℕ → ℕ → ℚ
  latestLfo : ℕ → ℚ

/-- The startup state built by `AppState::new()`. -/
def initMapState : MapState :=
  ⟨0, 0, fun _ _ => false, fun _ _ => false, fun _ _ => 0, fun _ => 0⟩

/-- Point update of a boolean matrix, mirroring `m[r][c] = v`. -/
def setB2 (m : ℕ → ℕ → Bool) (r c : ℕ) (v : Bool) : ℕ → ℕ → Bool :=
  fun r2 c2 => if r2 = r ∧ c2 = c then v else m r2 c2

/-- Point update of a rational matrix, mirroring `m[r][c] = v`. -/
def setQ2 (m : ℕ → ℕ → ℚ) (r c : ℕ) (v : ℚ) : ℕ → ℕ → ℚ :=
  fun r2 c2 => if r2 = r ∧ c2 = c then v else m r2 c2

/-- The `NOTE_GRID` table: grid row 0 is the top, `note = (7 - r) * 8 + c`. -/
def noteGrid (r c : ℕ) : ℕ :=
  (8 - 1 - r) * 8 + c

/-- Row-major enumeration of the 8 by 8 visible grid cells, in the order the
source's nested search loops visit them. -/
def gridCells : List (ℕ × ℕ) :=
  (List.range 8).flatMap (fun r => (List.range 8).map (fun c => (r, c)))

/-- The nested search loop resolving a note to its visible grid position
(first match in row-major order, as the double `break` produces). -/
def findGridPos (note : ℕ) : Option (ℕ × ℕ) :=
  gridCells.find? (fun p => decide (noteGrid p.1 p.2 = note))

/-- The grid-button branch of `process_midi_messages` for a press resolved
to visible cell `(rPv, cPv)`: deactivate the fader override for the column
in the current LFO bank, then toggle the mapping cell; when turning a cell
on, first clear every other row of the current LFO bank view in that
column (the mutual-exclusivity loop). -/
def gridPress (s : MapState) (rPv cPv : ℕ) : MapState :=
  let actualR := s.lfoBank * 8 + rPv
  let actualC := s.effectBank * 8 + cPv
  if actualC < 32 ∧ actualR < 32 then
    let fa := if s.faderActive s.lfoBank actualC then setB2 s.faderActive s.lfoBank actualC false
              else s.faderActive
    if s.mapping actualR actualC then
      { s with mapping := setB2 s.mapping actualR actualC false, faderActive := fa }
    else
      let cleared := (List.range 8).foldl (fun m rIter =>
        if s.lfoBank * 8 + rIter ≠ actualR ∧ s.lfoBank * 8 + rIter < 32 ∧
            m (s.lfoBank * 8 + rIter) actualC = true then
          setB2 m (s.lfoBank * 8 + rIter) actualC false
        else m) s.mapping
      { s with mapping := setB2 cleared actualR actualC true, faderActive := fa }
  else s

/-- The fader branch of `process_midi_messages` for CC numbers 48..55:
activate the override for the addressed column in the current LFO bank and
store `cc_value / 127`. -/
def faderCC (s : MapState) (ccNumber ccValue : ℕ) : MapState :=
  let actualCol := s.effectBank * 8 + (ccNumber - 48)
  if actualCol < 32 then
    { s with faderActive := setB2 s.faderActive s.lfoBank actualCol true,
             faderValue := setQ2 s.faderValue s.lfoBank actualCol ((ccValue : ℚ) / 127) }
  else s

/-- One iteration of the `process_midi_messages` receive loop on a raw MIDI
message (a byte list): note-on events select banks or press grid buttons,
control-change events 48..55 move faders, everything else is ignored. -/
def process_midi_message (s : MapState) (msg : List ℕ) : MapState :=
  if msg = [] then s
  else
    let status := msg.getD 0 0
    let data1 := if 1 < msg.length then msg.getD 1 0 else 0
    let data2 := if 2 < msg.length then msg.getD 2 0 else 0
    if status &&& 240 = 144 then
      if 0 < data2 then
        if 82 ≤ data1 ∧ data1 ≤ 85 then { s with lfoBank := data1 - 82 }
        else if 86 ≤ data1 ∧ data1 ≤ 89 then { s with effectBank := data1 - 86 }
        else
          match findGridPos data1 with
          | some p => gridPress s p.1 p.2
          | none => s
      else s
    else if status &&& 240 = 176 then
      if 48 ≤ data1 ∧ data1 ≤ 55 then faderCC s data1 data2 else s
    else s

/-- Machine epsilon of f32, the change threshold of the OSC sender. -/
def machineEps : ℚ :=
  1 / 8388608

/-- The per-column value computation of one OSC sender tick: the first
LFO bank (from 0 upward) with an active fader override wins; otherwise the
highest visible row of the current LFO bank with an active mapping supplies
its latest LFO value; otherwise the previously sent value is kept. -/
def computeCol (s : MapState) (sentVal : ℚ) (col : ℕ) : ℚ :=
  match (List.range 4).find? (fun b => s.faderActive b col) with
  | some b => s.faderValue b col
  | none =>
    match (List.range 8).reverse.find?
        (fun rv => decide (s.lfoBank * 8 + rv < 32) && s.mapping (s.lfoBank * 8 + rv) col) with
    | some rv => if s.lfoBank * 8 + rv < 32 then s.latestLfo (s.lfoBank * 8 + rv) else sentVal
    | none => sentVal

/-- The `next_osc_values_to_send` array of one tick (initialised to a clone
of `osc_sent_values`, then each column recomputed independently). -/
def nextValues (s : MapState) (sent : ℕ → ℚ) : ℕ → ℚ :=
  fun col => computeCol s (sent col) col

/-- The messages bundled in one tick: for each column whose recomputed value
differs from the last sent value by more than machine epsilon, a message
`(col + 1, value)` modelling `/effect/<col+1>` with a float argument. -/
def tick_messages (s : MapState) (sent : ℕ → ℚ) : List (ℕ × ℚ) :=
  (List.range 32).filterMap (fun i =>
    if machineEps < |nextValues s sent i - sent i| then some (i + 1, nextValues s sent i)
    else none)

/-! ## Sender-monitor controller health state machine
(src/sender_monitor/sender_monitor.rs) -/

/-- Per-controller status record, mirroring `ControllerStatus` (the ip/port
key is factored out; timestamps are integers). -/
structure CtrlStatus where
  is_routable : Bool
  is_connecting : Bool
  last_success : Option ℤ
  last_failure : Option ℤ
  failure_count : ℕ
  last_error : Option String
  cooldown_until : Option ℤ
deriving DecidableEq

/-- Mirrors `register_controller` at time `t`. -/
def register_controller (t : ℤ) : CtrlStatus :=
  ⟨true, false, some t, none, 0, none, none⟩

/-- Mirrors `report_controller_success` at time `t`: always record the
success; while still inside the cooldown window change nothing else;
otherwise promote to routable and clear the cooldown. -/
def report_controller_success (t : ℤ) (st : CtrlStatus) : CtrlStatus :=
  let st1 := { st with last_success := some t }
  match st1.cooldown_until with
  | some cu =>
    if t < cu then st1
    else { st1 with is_routable := true, is_connecting := false,
                    last_error := none, cooldown_until := none }
  | none => { st1 with is_routable := true, is_connecting := false,
                       last_error := none, cooldown_until := none }

/-- Mirrors `report_controller_failure` at time `t` with cooldown duration
`cooldown`: drop to non-routable connecting state and arm the cooldown. -/
def report_controller_failure (t cooldown : ℤ) (err : String) (st : CtrlStatus) : CtrlStatus :=
  { st with is_routable := false, is_connecting := true, last_failure := some t,
            failure_count := st.failure_count + 1, last_error := some err,
            cooldown_until := some (t + cooldown) }

/-- Mirrors the body of `update_controller_statuses` for one controller at
time `t`: promote a connecting controller whose cooldown has expired. -/
def update_controller_status (t : ℤ) (st : CtrlStatus) : CtrlStatus :=
  match st.cooldown_until with
  | some cu =>
    if cu ≤ t ∧ st.is_connecting then
      { st with is_routable := true, is_connecting := false, cooldown_until := none }
    else st
  | none => st

/-- An observation event hitting one controller record: a success report or
a periodic status update, each carrying its wall-clock time. -/
inductive MonEvent where
  | success (t : ℤ)
  | tick (t : ℤ)
deriving DecidableEq

/-- The time an event occurs at. -/
def MonEvent.time : MonEvent → ℤ
  | success t => t
  | tick t => t

/-- Apply one event to a controller record. -/
def applyMonEvent (st : CtrlStatus) (e : MonEvent) : CtrlStatus :=
  match e with
  | .success t => report_controller_success t st
  | .tick t => update_controller_status t st

/-- A concrete error string for witness scenarios. -/
def errRefused : String :=
  "refused"

/-! ## Art-Net theorems -/

theorem foldl_append_eq_flatMap {α β : Type} (g : α → List β) :
    ∀ (l : List α) (init : List β),
      l.foldl (fun acc x => acc ++ g x) init = init ++ l.flatMap g := by
  intro l
  induction l with
  | nil => simp
  | cons a l ih =>
    intro init
    simp [List.foldl_cons, ih (init ++ g a)]

theorem drop_min_length {α : Type} (l : List α) (n : ℕ) :
    l.drop (min l.length n) = l.drop n := by
  rcases le_total l.length n with h | h
  · rw [min_eq_left h, List.drop_length, Eq.comm, List.drop_eq_nil_iff_le.mpr h]
  · rw [min_eq_right h]

theorem take_min_length {α : Type} (l : List α) (n : ℕ) :
    l.take (min l.length n) = l.take n := by
  rw [List.take_eq_take]
  omega

theorem sendChunks_eq_chunkList (cpu : ℕ) (hcpu : cpu ≠ 0) :
    ∀ (bytes : List ℕ) (u : ℕ),
      sendChunks cpu u bytes = packetsFrom u (chunkList cpu bytes) := by
  have main : ∀ (n : ℕ) (bytes : List ℕ), bytes.length ≤ n → ∀ u,
      sendChunks cpu u bytes = packetsFrom u (chunkList cpu bytes) := by
    intro n
    induction n with
    | zero =>
      intro bytes hlen u
      have hb : bytes = [] := List.length_eq_zero.mp (Nat.le_zero.mp hlen)
      subst hb
      rw [sendChunks.eq_def, chunkList.eq_def]
      simp [packetsFrom]
    | succ n ih =>
      intro bytes hlen u
      by_cases hb : bytes = []
      · subst hb
        rw [sendChunks.eq_def, chunkList.eq_def]
        simp [packetsFrom]
      · have hcond : ¬(bytes = [] ∨ cpu = 0) := by
          intro hor
          rcases hor with h1 | h1
          · exact hb h1
          · exact hcpu h1
        rw [sendChunks.eq_def, chunkList.eq_def]
        rw [dif_neg hcond, dif_neg hcond]
        rw [take_min_length, drop_min_length]
        simp only [packetsFrom]
        congr 1
        have hlen2 : (bytes.drop cpu).length ≤ n := by
          have h1 : 0 < bytes.length := List.length_pos.mpr hb
          simp only [List.length_drop]
          omega
        rw [ih (bytes.drop cpu) hlen2 (u + 1)]
  intro bytes u
  exact main bytes.length bytes le_rfl u

theorem stepRange_mem (L span : ℕ) (hspan : 0 < span) (i : ℕ) :
    i ∈ stepRange L span ↔ span ∣ i ∧ i < L := by
  unfold stepRange
  simp only [List.mem_map, List.mem_range]
  constructor
  · rintro ⟨j, hj, rfl⟩
    refine ⟨dvd_mul_left span j, ?_⟩
    have h1 : j + 1 ≤ (L + span - 1) / span := hj
    have h2 : (j + 1) * span ≤ L + span - 1 := by
      calc (j + 1) * span ≤ (L + span - 1) / span * span :=
            Nat.mul_le_mul_right span h1
        _ ≤ L + span - 1 := Nat.div_mul_le_self _ _
    have h3 : j * span + span ≤ L + span - 1 := by
      rw [add_mul, one_mul] at h2
      exact h2
    omega
  · rintro ⟨⟨j, rfl⟩, hlt⟩
    refine ⟨j, ?_, mul_comm j span⟩
    have hcomm : j * span = span * j := mul_comm j span
    have h3 : (j + 1) * span ≤ L + span - 1 := by
      rw [add_mul, one_mul]
      omega
    have h4 : j + 1 ≤ (L + span - 1) / span := (Nat.le_div_iff_mul_le hspan).mpr h3
    omega

/-- C8: Art-Net send semantics.  The full packet sequence of
`send_dmx_rust_raster_data` is: for each enumerated z-index (defaulting to
multiples of the channel span below the raster length), the chunked layer
bytes as OpDmx packets starting at universe
`(out_z / channel_span) * universes_per_layer + base_universe` and
incrementing per chunk, a layer being silently skipped (empty byte run)
when its slice exceeds the data length; then exactly one OpSync packet,
which is distinct from every OpDmx packet.  Scenario S1 is computed
byte-for-byte. -/
theorem artnet_send_semantics :
    (∀ (base W H L : ℕ) (br : ℚ) (data : List RGB) (cpu upl span : ℕ)
        (zi : Option (List ℕ)), 0 < cpu →
      send_dmx_model base W H L br data cpu upl span zi
        = ((zi.getD (stepRange L span)).enum.flatMap (fun p =>
            packetsFrom (p.1 / span * upl + base)
              (chunkList cpu (layerBytes W H br data p.2))))
          ++ [create_sync_packet])
    ∧ (∀ L span, 0 < span → ∀ i, i ∈ stepRange L span ↔ span ∣ i ∧ i < L)
    ∧ (∀ W H (br : ℚ) data z, data.length < (z + 1) * W * H →
        layerBytes W H br data z = [])
    ∧ (∀ u d, create_dmx_packet u d ≠ create_sync_packet)
    ∧ send_dmx_model 0 2 1 1 1 srcS1Data 510 3 1 none
        = [[65, 114, 116, 45, 78, 101, 116, 0, 0, 0x50, 0, 14, 0, 0, 0, 0, 0, 6,
            10, 20, 30, 40, 50, 60],
           [65, 114, 116, 45, 78, 101, 116, 0, 0, 0x52, 0, 14, 0, 0]] := by
  refine ⟨?_, ?_, ?_, ?_, ?_⟩
  · intro base W H L br data cpu upl span zi hcpu
    unfold send_dmx_model
    rw [foldl_append_eq_flatMap (fun p : ℕ × ℕ => sendChunks cpu
      (p.1 / span * upl + base) (layerBytes W H br data p.2))
      ((zi.getD (stepRange L span)).enum) []]
    simp only [List.nil_append]
    congr 1
    apply List.flatMap_congr
    intro p _
    exact sendChunks_eq_chunkList cpu (Nat.pos_iff_ne_zero.mp hcpu) _ _
  · intro L span hspan i
    exact stepRange_mem L span hspan i
  · intro W H br data z hlen
    unfold layerBytes
    rw [if_pos hlen]
  · intro u d hEq
    have h1 : (create_dmx_packet u d).length = 18 + d.length := by
      simp [create_dmx_packet, artnetId, le16, be16]
      omega
    have h2 : create_sync_packet.length = 14 := by
      simp [create_sync_packet, artnetId, le16, be16]
    rw [hEq, h2] at h1
    omega
  · simp only [send_dmx_model, stepRange, layerBytes, srcS1Data]
    norm_num [show (List.range 1).enum = [(0, 0)] from rfl, List.foldl]
    rw [sendChunks.eq_def]
    norm_num [rgbBytes, saturate_u8, List.take, List.drop, List.flatMap]
    rw [sendChunks.eq_def]
    norm_num [create_dmx_packet, create_sync_packet, artnetId, le16, be16]
    decide

/-- Witness for the Art-Net send characterization at the scenario-S1
parameters, discharging the positivity and bounds hypotheses. -/
theorem artnet_send_semantics_witness :
    (send_dmx_model 0 2 1 1 1 srcS1Data 510 3 1 none
      = (((none : Option (List ℕ)).getD (stepRange 1 1)).enum.flatMap (fun p =>
          packetsFrom (p.1 / 1 * 3 + 0) (chunkList 510 (layerBytes 2 1 1 srcS1Data p.2))))
        ++ [create_sync_packet])
    ∧ (0 ∈ stepRange 1 1 ↔ 1 ∣ 0 ∧ 0 < 1)
    ∧ layerBytes 2 1 1 srcS1Data 1 = []
    ∧ create_dmx_packet 0 [] ≠ create_sync_packet :=
  ⟨artnet_send_semantics.1 0 2 1 1 1 srcS1Data 510 3 1 none (by decide),
   artnet_send_semantics.2.1 1 1 (by decide) 0,
   artnet_send_semantics.2.2.1 2 1 1 srcS1Data 1 (by decide),
   artnet_send_semantics.2.2.2.1 0 []⟩

/-- C9: bit-exact Art-Net packet layouts.  An OpDmx packet is the ASCII
identifier, opcode 0x5000 little-endian, protocol version 14 big-endian, a
zero sequence byte, a zero physical byte, the universe little-endian, the
payload length big-endian, then the payload; an OpSync packet is the
identifier, opcode 0x5200 little-endian, protocol version 14 big-endian and
two zero bytes. -/
theorem artnet_packet_bit_exactness :
    (∀ (u : ℕ) (d : List ℕ), u < 65536 → d.length < 65536 →
      create_dmx_packet u d
        = [65, 114, 116, 45, 78, 101, 116, 0] ++ [0x00, 0x50] ++ [0, 14] ++ [0, 0]
          ++ [u % 256, u / 256] ++ [d.length / 256, d.length % 256] ++ d)
    ∧ create_sync_packet
        = [65, 114, 116, 45, 78, 101, 116, 0] ++ [0x00, 0x52] ++ [0, 14] ++ [0, 0] := by
  constructor
  · intro u d hu hd
    have hid : artnetId = [65, 114, 116, 45, 78, 101, 116, 0] := by decide
    have h1 : u / 256 % 256 = u / 256 := Nat.mod_eq_of_lt (by omega)
    have h2 : d.length / 256 % 256 = d.length / 256 := Nat.mod_eq_of_lt (by omega)
    simp [create_dmx_packet, le16, be16, hid, h1, h2]
  · decide

/-- Witness for the packet-layout theorem at universe 258 with a three-byte
payload. -/
theorem artnet_packet_bit_exactness_witness :
    create_dmx_packet 258 [7, 8, 9]
      = [65, 114, 116, 45, 78, 101, 116, 0] ++ [0x00, 0x50] ++ [0, 14] ++ [0, 0]
        ++ [2, 1] ++ [0, 3] ++ [7, 8, 9] :=
  artnet_packet_bit_exactness.1 258 [7, 8, 9] (by decide) (by decide)

/-! ## Display diffing theorems -/

theorem getD_set {α : Type} (l : List α) (i j : ℕ) (a d : α) :
    (l.set i a).getD j d = if i = j ∧ i < l.length then a else l.getD j d := by
  rcases Decidable.em (i = j ∧ i < l.length) with h | h
  · obtain ⟨rfl, hlt⟩ := h
    rw [if_pos ⟨rfl, hlt⟩, List.getD_eq_getElem?_getD, List.getElem?_set_self hlt]
    rfl
  · rw [if_neg h]
    rcases Decidable.em (i = j) with rfl | hij
    · have hge : l.length ≤ i := by
        rcases Nat.lt_or_ge i l.length with hlt | hge2
        · exact absurd ⟨rfl, hlt⟩ h
        · exact hge2
      rw [List.set_eq_of_length_le hge]
    · rw [List.getD_eq_getElem?_getD, List.getD_eq_getElem?_getD, List.getElem?_set_ne hij]

theorem getD_replicate_pos {α : Type} (n i : ℕ) (d c : α) :
    (List.replicate n c).getD i d = if i < n then c else d := by
  rcases Decidable.em (i < n) with h | h
  · rw [if_pos h, List.getD_eq_getElem?_getD, List.getElem?_replicate, if_pos h]
    rfl
  · rw [if_neg h, List.getD_eq_getElem?_getD, List.getElem?_replicate, if_neg h]
    rfl

theorem diffStep_false_none (d : ℕ → Bool) (x : ℕ) (h : d x = false)
    (rch : List (ℕ × ℕ)) (le : Option ℕ) :
    diffStep d ⟨rch, none, le⟩ x = ⟨rch, none, le⟩ := by
  simp [diffStep, h]

theorem diffStep_false_close (d : ℕ → Bool) (x : ℕ) (h : d x = false)
    (rch : List (ℕ × ℕ)) (s0 : ℕ) (le : Option ℕ) :
    diffStep d ⟨rch, some s0, le⟩ x = ⟨(s0, x) :: rch, none, some x⟩ := by
  simp [diffStep, h]

theorem diffStep_true_hold (d : ℕ → Bool) (x : ℕ) (h : d x = true)
    (rch : List (ℕ × ℕ)) (s0 : ℕ) (le : Option ℕ) :
    diffStep d ⟨rch, some s0, le⟩ x = ⟨rch, some s0, le⟩ := by
  simp [diffStep, h]

theorem diffStep_true_fresh (d : ℕ → Bool) (x : ℕ) (h : d x = true)
    (rch : List (ℕ × ℕ)) :
    diffStep d ⟨rch, none, none⟩ x = ⟨rch, some x, none⟩ := by
  cases rch with
  | nil => simp [diffStep, h]
  | cons c rest => simp [diffStep, h]

theorem diffStep_true_merge (d : ℕ → Bool) (x : ℕ) (h : d x = true)
    (s0 e0 e : ℕ) (rest : List (ℕ × ℕ)) (hle : x - e ≤ 3) :
    diffStep d ⟨(s0, e0) :: rest, none, some e⟩ x
      = ⟨(s0, min (x + 1) displayWidth) :: rest, none, some (min (x + 1) displayWidth)⟩ := by
  simp [diffStep, h, hle]

theorem diffStep_true_far (d : ℕ → Bool) (x : ℕ) (h : d x = true)
    (s0 e0 e : ℕ) (rest : List (ℕ × ℕ)) (hle : ¬ x - e ≤ 3) :
    diffStep d ⟨(s0, e0) :: rest, none, some e⟩ x
      = ⟨(s0, e0) :: rest, some x, some e⟩ := by
  simp [diffStep, h, hle]

theorem foldl_false_seg (d : ℕ → Bool) :
    ∀ (n s : ℕ) (rch : List (ℕ × ℕ)) (le : Option ℕ),
      (∀ x, s ≤ x → x < s + n → d x = false) →
      (List.range' s n).foldl (diffStep d) ⟨rch, none, le⟩ = ⟨rch, none, le⟩ := by
  intro n
  induction n with
  | zero => intro s rch le _; simp
  | succ n ih =>
    intro s rch le hd
    rw [List.range'_succ, List.foldl_cons]
    rw [diffStep_false_none d s (hd s le_rfl (by omega)) rch le]
    exact ih (s + 1) rch le (fun x h1 h2 => hd x (by omega) (by omega))

theorem foldl_close_seg (d : ℕ → Bool) (n s : ℕ) (hn : 0 < n)
    (rch : List (ℕ × ℕ)) (s0 : ℕ) (le : Option ℕ)
    (hd : ∀ x, s ≤ x → x < s + n → d x = false) :
    (List.range' s n).foldl (diffStep d) ⟨rch, some s0, le⟩ = ⟨(s0, s) :: rch, none, some s⟩ := by
  cases n with
  | zero => omega
  | succ n =>
    rw [List.range'_succ, List.foldl_cons]
    rw [diffStep_false_close d s (hd s le_rfl (by omega)) rch s0 le]
    exact foldl_false_seg d n (s + 1) _ _ (fun x h1 h2 => hd x (by omega) (by omega))

theorem foldl_true_hold_seg (d : ℕ → Bool) :
    ∀ (n s : ℕ) (rch : List (ℕ × ℕ)) (s0 : ℕ) (le : Option ℕ),
      (∀ x, s ≤ x → x < s + n → d x = true) →
      (List.range' s n).foldl (diffStep d) ⟨rch, some s0, le⟩ = ⟨rch, some s0, le⟩ := by
  intro n
  induction n with
  | zero => intro s rch s0 le _; simp
  | succ n ih =>
    intro s rch s0 le hd
    rw [List.range'_succ, List.foldl_cons]
    rw [diffStep_true_hold d s (hd s le_rfl (by omega)) rch s0 le]
    exact ih (s + 1) rch s0 le (fun x h1 h2 => hd x (by omega) (by omega))

theorem foldl_true_merge_seg (d : ℕ → Bool) :
    ∀ (n s : ℕ) (s0 e0 e : ℕ) (rest : List (ℕ × ℕ)),
      0 < n → s + n ≤ displayWidth → s - e ≤ 3 →
      (∀ x, s ≤ x → x < s + n → d x = true) →
      (List.range' s n).foldl (diffStep d) ⟨(s0, e0) :: rest, none, some e⟩
        = ⟨(s0, s + n) :: rest, none, some (s + n)⟩ := by
  intro n
  induction n with
  | zero => intro s s0 e0 e rest hn; omega
  | succ n ih =>
    intro s s0 e0 e rest hn hw hnear hd
    rw [List.range'_succ, List.foldl_cons]
    rw [diffStep_true_merge d s (hd s le_rfl (by omega)) s0 e0 e rest hnear]
    have hmin : min (s + 1) displayWidth = s + 1 := by
      have : displayWidth = 20 := rfl
      omega
    rw [hmin]
    cases n with
    | zero => simp
    | succ m =>
      have hfold := ih (s + 1) s0 (s + 1) (s + 1) rest (by omega) (by omega) (by omega)
        (fun x h1 h2 => hd x (by omega) (by omega))
      rw [hfold]
      have heq : s + 1 + (m + 1) = s + (m + 1 + 1) := by omega
      rw [heq]

theorem range'_split (s m k : ℕ) (h : m ≤ k) :
    List.range' s k = List.range' s m ++ List.range' (s + m) (k - m) := by
  have hh := List.range'_append_1 s m (k - m)
  rw [hh]
  congr 1
  omega

theorem twoRange_changes (a1 b1 a2 b2 : ℕ)
    (h1 : a1 < b1) (h2 : b1 < a2) (h3 : a2 < b2) (h4 : b2 ≤ displayWidth) :
    changesOfPattern (twoRangePattern a1 b1 a2 b2)
      = if a2 - b1 ≤ 3 then [(a1, b2)] else [(a1, b1), (a2, b2)] := by
  unfold changesOfPattern
  have hsplit : List.range displayWidth
      = List.range' 0 a1 ++ List.range' a1 (b1 - a1) ++ List.range' b1 (a2 - b1)
        ++ List.range' a2 (b2 - a2) ++ List.range' b2 (displayWidth - b2) := by
    rw [List.range_eq_range']
    rw [range'_split 0 a1 displayWidth (by omega)]
    rw [range'_split (0 + a1) (b1 - a1) (displayWidth - a1) (by omega)]
    rw [show 0 + a1 + (b1 - a1) = b1 from by omega]
    rw [range'_split b1 (a2 - b1) (displayWidth - a1 - (b1 - a1)) (by omega)]
    rw [show b1 + (a2 - b1) = a2 from by omega]
    rw [range'_split a2 (b2 - a2) (displayWidth - a1 - (b1 - a1) - (a2 - b1)) (by omega)]
    rw [show a2 + (b2 - a2) = b2 from by omega]
    rw [show displayWidth - a1 - (b1 - a1) - (a2 - b1) - (b2 - a2) = displayWidth - b2 from
      by omega]
    simp [List.append_assoc]
  rw [hsplit]
  simp only [List.foldl_append]
  set d := twoRangePattern a1 b1 a2 b2 with hdef
  have hfalse1 : ∀ x, x < a1 → d x = false := by
    intro x hx
    simp [hdef, twoRangePattern]
    omega
  have htrue1 : ∀ x, a1 ≤ x → x < b1 → d x = true := by
    intro x hx1 hx2
    simp [hdef, twoRangePattern]
    omega
  have hfalse2 : ∀ x, b1 ≤ x → x < a2 → d x = false := by
    intro x hx1 hx2
    simp [hdef, twoRangePattern]
    omega
  have htrue2 : ∀ x, a2 ≤ x → x < b2 → d x = true := by
    intro x hx1 hx2
    simp [hdef, twoRangePattern]
    omega
  have hfalse3 : ∀ x, b2 ≤ x → d x = false := by
    intro x hx
    simp [hdef, twoRangePattern]
    omega
  rw [foldl_false_seg d a1 0 [] none (fun x hx1 hx2 => hfalse1 x (by omega))]
  have hseg2 : (List.range' a1 (b1 - a1)).foldl (diffStep d) ⟨[], none, none⟩
      = ⟨[], some a1, none⟩ := by
    cases hc : b1 - a1 with
    | zero => omega
    | succ m =>
      rw [List.range'_succ, List.foldl_cons]
      rw [diffStep_true_fresh d a1 (htrue1 a1 le_rfl (by omega)) []]
      exact foldl_true_hold_seg d m (a1 + 1) [] a1 none
        (fun x hx1 hx2 => htrue1 x (by omega) (by omega))
  rw [hseg2]
  rw [foldl_close_seg d (a2 - b1) b1 (by omega) [] a1 none
    (fun x hx1 hx2 => hfalse2 x (by omega) (by omega))]
  by_cases hgap : a2 - b1 ≤ 3
  · have hseg4 : (List.range' a2 (b2 - a2)).foldl (diffStep d) ⟨[(a1, b1)], none, some b1⟩
        = ⟨[(a1, b2)], none, some b2⟩ := by
      have hm := foldl_true_merge_seg d (b2 - a2) a2 a1 b1 b1 [] (by omega) (by omega) (by omega)
        (fun x hx1 hx2 => htrue2 x (by omega) (by omega))
      rw [show a2 + (b2 - a2) = b2 from by omega] at hm
      exact hm
    rw [hseg4]
    rw [foldl_false_seg d (displayWidth - b2) b2 [(a1, b2)] (some b2)
      (fun x hx1 hx2 => hfalse3 x (by omega))]
    simp [hgap]
  · have hseg4 : (List.range' a2 (b2 - a2)).foldl (diffStep d) ⟨[(a1, b1)], none, some b1⟩
        = ⟨[(a1, b1)], some a2, some b1⟩ := by
      cases hc : b2 - a2 with
      | zero => omega
      | succ m =>
        rw [List.range'_succ, List.foldl_cons]
        rw [diffStep_true_far d a2 (htrue2 a2 le_rfl (by omega)) a1 b1 b1 [] (by omega)]
        exact foldl_true_hold_seg d m (a2 + 1) [(a1, b1)] a2 (some b1)
          (fun x hx1 hx2 => htrue2 x (by omega) (by omega))
    rw [hseg4]
    by_cases hb2 : b2 = displayWidth
    · subst hb2
      rw [show displayWidth - displayWidth = 0 from by omega]
      simp [hgap]
    · rw [foldl_close_seg d (displayWidth - b2) b2 (by omega) [(a1, b1)] a2 (some b1)
        (fun x hx1 hx2 => hfalse3 x (by omega))]
      simp [hgap]

theorem oneRange_changes : ∀ a < 20, ∀ b < 21, a < b →
    changesOfPattern (oneRangePattern a b) = [(a, b)] := by decide

theorem diffStep_congr_pt (d1 d2 : ℕ → Bool) (x : ℕ) (hx : d1 x = d2 x) (st : DiffState) :
    diffStep d1 st x = diffStep d2 st x := by
  simp only [diffStep, hx]

theorem foldl_diffStep_congr (d1 d2 : ℕ → Bool) :
    ∀ (l : List ℕ), (∀ x ∈ l, d1 x = d2 x) → ∀ st,
      l.foldl (diffStep d1) st = l.foldl (diffStep d2) st := by
  intro l
  induction l with
  | nil => intro _ st; rfl
  | cons a l ih =>
    intro h st
    rw [List.foldl_cons, List.foldl_cons]
    rw [diffStep_congr_pt d1 d2 a (h a (List.mem_cons_self a l)) st]
    exact ih (fun x hx => h x (List.mem_cons_of_mem a hx)) _

theorem changesOfPattern_congr (d1 d2 : ℕ → Bool)
    (h : ∀ x, x < displayWidth → d1 x = d2 x) :
    changesOfPattern d1 = changesOfPattern d2 := by
  unfold changesOfPattern
  rw [foldl_diffStep_congr d1 d2 (List.range displayWidth)
    (fun x hx => h x (List.mem_range.mp hx))]

/-- C5: display diff merging.  For any front/back pair and any row whose
changed-cell set is exactly two maximal ranges, `find_contiguous_changes`
returns one merged run (covering both ranges and the gap, whose text
`commit_display` then rewrites as-is from the back buffer) when the gap is
at most 3 unchanged cells, and the two separate runs when the gap is 4 or
more; scenario S2 commits to exactly one LcdWrite(1,0,XCDEY). -/
theorem display_diff_merging :
    (∀ (front back : Buffer) (y a1 b1 a2 b2 : ℕ),
      a1 < b1 → b1 < a2 → a2 < b2 → b2 ≤ displayWidth →
      (∀ x, x < displayWidth →
        ((getCell front y x ≠ getCell back y x) ↔ ((a1 ≤ x ∧ x < b1) ∨ (a2 ≤ x ∧ x < b2)))) →
      find_contiguous_changes front back y
        = if a2 - b1 ≤ 3 then [(a1, b2)] else [(a1, b1), (a2, b2)])
    ∧ (commit_display s2Front s2Back).1 = [OutgoingMessage.lcdWrite 1 0 s2Text] := by
  constructor
  · intro front back y a1 b1 a2 b2 h1 h2 h3 h4 hpat
    unfold find_contiguous_changes
    rw [changesOfPattern_congr (fun x => decide (getCell front y x ≠ getCell back y x))
      (twoRangePattern a1 b1 a2 b2) (fun x hx => by
        simp only [twoRangePattern]
        exact decide_eq_decide.mpr (hpat x hx))]
    exact twoRange_changes a1 b1 a2 b2 h1 h2 h3 h4
  · decide

/-- Witness for the diff-merging theorem on the S2 buffers: changed ranges
[1,2) and [5,6) with a gap of 3 merge into the single run (1,6). -/
theorem display_diff_merging_witness :
    find_contiguous_changes s2Front s2Back 0 = [(1, 6)] := by
  have h := display_diff_merging.1 s2Front s2Back 0 1 2 5 6 (by decide) (by decide) (by decide)
    (by decide) (by decide)
  simpa using h

/-- C7: all-blank shortcut.  Whenever the back buffer is entirely spaces and
the front buffer is not, `commit_display` returns exactly one LcdClear and
blanks the front buffer; and the concrete S3 round trip: writing Hi commits
to one LcdWrite(0,0,Hi), then clearing and committing yields exactly
[LcdClear]. -/
theorem all_blank_shortcut :
    (∀ front back : Buffer,
      back.all (fun row => row.all (fun ch => ch = ' ')) = true →
      ¬ front.all (fun row => row.all (fun ch => ch = ' ')) = true →
      commit_display front back = ([OutgoingMessage.lcdClear], buildBuffer (fun _ _ => ' ')))
    ∧ (commit_display blankBuffer (write_display blankBuffer 0 0 s3Text)).1
        = [OutgoingMessage.lcdWrite 0 0 s3Text]
    ∧ (commit_display (commit_display blankBuffer (write_display blankBuffer 0 0 s3Text)).2
          (clear_display (write_display blankBuffer 0 0 s3Text))).1
        = [OutgoingMessage.lcdClear] := by
  refine ⟨?_, by decide, by decide⟩
  intro front back hb _hf
  simp [commit_display, hb]

/-- Witness for the all-blank shortcut: a non-blank front with a blank back
commits to exactly one LcdClear. -/
theorem all_blank_shortcut_witness :
    commit_display s2Back blankBuffer
      = ([OutgoingMessage.lcdClear], buildBuffer (fun _ _ => ' ')) :=
  all_blank_shortcut.1 s2Back blankBuffer (by decide) (by decide)

/-- C10 (implicit): the all-blank shortcut fires on the back buffer alone,
with no comparison against the front buffer: even when the front buffer is
already all spaces, committing returns [LcdClear] (never zero messages), so
repeated commits of a blank display emit one LcdClear each. -/
theorem blank_commit_always_clears :
    (∀ front back : Buffer,
      back.all (fun row => row.all (fun ch => ch = ' ')) = true →
      (commit_display front back).1 = [OutgoingMessage.lcdClear])
    ∧ (commit_display blankBuffer blankBuffer).1 = [OutgoingMessage.lcdClear]
    ∧ (commit_display (commit_display blankBuffer blankBuffer).2 blankBuffer).1
        = [OutgoingMessage.lcdClear] := by
  refine ⟨?_, by decide, by decide⟩
  intro front back hb
  simp [commit_display, hb]

/-- Witness for the unconditional blank-commit clear at the all-blank front
buffer. -/
theorem blank_commit_always_clears_witness :
    (commit_display blankBuffer blankBuffer).1 = [OutgoingMessage.lcdClear] :=
  blank_commit_always_clears.1 blankBuffer blankBuffer (by decide)

/-! ## Commit minimality (write then commit) -/

theorem writeChars_length : ∀ (text : List Char) (x : ℕ) (row : List Char),
    (writeChars row x text).length = row.length := by
  intro text
  induction text with
  | nil => intro x row; rfl
  | cons c rest ih =>
    intro x row
    unfold writeChars
    by_cases h : displayWidth ≤ x
    · rw [if_pos h]
    · rw [if_neg h, ih (x + 1) (row.set x c), List.length_set]

theorem writeChars_getD : ∀ (text : List Char) (x : ℕ) (row : List Char) (i : ℕ),
    row.length = displayWidth → x + text.length ≤ displayWidth →
    (writeChars row x text).getD i ' '
      = if x ≤ i ∧ i < x + text.length then text.getD (i - x) ' ' else row.getD i ' ' := by
  intro text
  induction text with
  | nil =>
    intro x row i hrow hle
    rw [if_neg (by simp only [List.length_nil]; omega)]
    rfl
  | cons c rest ih =>
    intro x row i hrow hle
    have hlen : rest.length + 1 = (c :: rest).length := rfl
    have hx : ¬ displayWidth ≤ x := by
      simp only [List.length_cons] at hle
      omega
    unfold writeChars
    rw [if_neg hx]
    rw [ih (x + 1) (row.set x c) i (by rw [List.length_set]; exact hrow)
      (by simp only [List.length_cons] at hle; omega)]
    by_cases hix : i = x
    · subst hix
      rw [if_neg (by omega), if_pos (by simp only [List.length_cons]; omega)]
      rw [getD_set]
      rw [if_pos ⟨rfl, by omega⟩]
      simp
    · by_cases hin : x + 1 ≤ i ∧ i < x + 1 + rest.length
      · rw [if_pos hin, if_pos (by simp only [List.length_cons]; omega)]
        rw [show i - x = (i - (x + 1)) + 1 from by omega]
        rw [List.getD_cons_succ]
      · rw [if_neg hin, if_neg (by simp only [List.length_cons]; omega)]
        rw [getD_set, if_neg (fun hh => hix hh.1.symm)]

theorem writeChars_slice (text : List Char) (x : ℕ) (row : List Char)
    (hrow : row.length = displayWidth) (hle : x + text.length ≤ displayWidth) :
    rowSlice (writeChars row x text) x (x + text.length) = text := by
  unfold rowSlice
  have hwlen : (writeChars row x text).length = displayWidth := by
    rw [writeChars_length, hrow]
  apply List.ext_getElem
  · simp only [List.length_take, List.length_drop, hwlen]
    omega
  · intro i h1 h2
    rw [List.getElem_take, List.getElem_drop]
    have hi : i < text.length := h2
    have hxi : x + i < (writeChars row x text).length := by omega
    rw [← List.getD_eq_getElem (writeChars row x text) ' ' hxi]
    rw [writeChars_getD text x row (x + i) hrow hle]
    rw [if_pos ⟨by omega, by omega⟩]
    rw [show x + i - x = i from by omega]
    exact List.getD_eq_getElem text ' ' hi

theorem getCell_buildBuffer (f : ℕ → ℕ → Char) (y x : ℕ)
    (hy : y < displayHeight) (hx : x < displayWidth) :
    getCell (buildBuffer f) y x = f y x := by
  unfold getCell buildBuffer
  have hrow : ((List.range displayHeight).map
        (fun y2 => (List.range displayWidth).map (fun x2 => f y2 x2))).getD y []
      = (List.range displayWidth).map (fun x2 => f y x2) := by
    rw [List.getD_eq_getElem?_getD, List.getElem?_map, List.getElem?_range hy]
    rfl
  rw [hrow]
  rw [List.getD_eq_getElem?_getD, List.getElem?_map, List.getElem?_range hx]
  rfl

theorem changesOfPattern_false : changesOfPattern (fun _ => false) = [] := by decide

theorem find_changes_nil (front back : Buffer) (y : ℕ)
    (h : ∀ x, x < displayWidth → getCell front y x = getCell back y x) :
    find_contiguous_changes front back y = [] := by
  unfold find_contiguous_changes
  rw [changesOfPattern_congr _ (fun _ => false) (fun x hx => by simp [h x hx])]
  exact changesOfPattern_false

theorem commit_display_second (front back : Buffer)
    (hns : back.all (fun row => row.all (fun ch => ch = ' ')) = false)
    (hagree : ∀ y x, y < displayHeight → x < displayWidth →
      getCell front y x = getCell back y x) :
    (commit_display front back).1 = [] := by
  unfold commit_display
  rw [hns]
  simp only [Bool.false_eq_true, if_false]
  rw [List.flatMap_eq_nil_iff.mpr]
  intro y hy
  rw [find_changes_nil front back y (fun x hx => hagree y x (List.mem_range.mp hy) hx)]
  rfl

theorem flatMap_range4_single {α : Type} (f : ℕ → List α) (y : ℕ) (hy : y < 4)
    (h0 : ∀ y2, y2 < 4 → y2 ≠ y → f y2 = []) :
    (List.range 4).flatMap f = f y := by
  have hr : List.range 4 = [0, 1, 2, 3] := rfl
  rw [hr]
  interval_cases y
  · simp [List.flatMap_cons, h0 1 (by omega) (by omega), h0 2 (by omega) (by omega),
      h0 3 (by omega) (by omega)]
  · simp [List.flatMap_cons, h0 0 (by omega) (by omega), h0 2 (by omega) (by omega),
      h0 3 (by omega) (by omega)]
  · simp [List.flatMap_cons, h0 0 (by omega) (by omega), h0 1 (by omega) (by omega),
      h0 3 (by omega) (by omega)]
  · simp [List.flatMap_cons, h0 0 (by omega) (by omega), h0 1 (by omega) (by omega),
      h0 2 (by omega) (by omega)]

/-- C6 (amended): starting from blank buffers, writing a nonempty all
non-space text that fits at (x, y) and committing emits exactly one
LcdWrite(x, y, text); a second commit with no intervening write emits
nothing.  (The amendment restricts the claim to texts without space
characters that fit on the row: a leading/interior/trailing space or a
truncated text changes the emitted run, see the counterexample.) -/
theorem commit_minimality_amended :
    ∀ (x y : ℕ) (text : List Char),
      x < displayWidth → y < displayHeight → text ≠ [] →
      (∀ ch ∈ text, ch ≠ ' ') → x + text.length ≤ displayWidth →
      (commit_display blankBuffer (write_display blankBuffer x y text)).1
        = [OutgoingMessage.lcdWrite x y text]
      ∧ (commit_display (commit_display blankBuffer (write_display blankBuffer x y text)).2
          (write_display blankBuffer x y text)).1 = [] := by
  intro x y text hx hy hne hns hfit
  have h20 : displayWidth = 20 := rfl
  have h4 : displayHeight = 4 := rfl
  have hlen1 : 0 < text.length := List.length_pos.mpr hne
  set back := write_display blankBuffer x y text with hback
  have hbackeq : back
      = blankBuffer.set y (writeChars (List.replicate displayWidth ' ') x text) := by
    rw [hback]
    unfold write_display
    rw [if_neg (by omega)]
    congr 1
    unfold blankBuffer
    rw [getD_replicate_pos, if_pos hy]
  have hrowlen : (List.replicate displayWidth ' ').length = displayWidth :=
    List.length_replicate _ _
  set wrow := writeChars (List.replicate displayWidth ' ') x text with hwrow
  have hwlen : wrow.length = displayWidth := by
    rw [hwrow, writeChars_length, hrowlen]
  have hblen : blankBuffer.length = displayHeight := List.length_replicate _ _
  have hgetrow : back.getD y [] = wrow := by
    rw [hbackeq, getD_set, if_pos ⟨rfl, by omega⟩]
  have hrep : ∀ i, (List.replicate displayWidth ' ').getD i ' ' = ' ' := by
    intro i
    rw [getD_replicate_pos]
    exact ite_self ' '
  have hcell_y : ∀ i, getCell back y i
      = if x ≤ i ∧ i < x + text.length then text.getD (i - x) ' ' else ' ' := by
    intro i
    unfold getCell
    rw [hgetrow, hwrow, writeChars_getD text x _ i hrowlen hfit, hrep i]
  have hcell_ne : ∀ y2 i, y2 ≠ y → getCell back y2 i = getCell blankBuffer y2 i := by
    intro y2 i hne2
    unfold getCell
    rw [hbackeq, getD_set, if_neg (fun hh => hne2 hh.1.symm)]
  have hblank_cell : ∀ y2 i, getCell blankBuffer y2 i = ' ' := by
    intro y2 i
    unfold getCell blankBuffer
    rw [getD_replicate_pos]
    by_cases h : y2 < displayHeight
    · rw [if_pos h]
      exact hrep i
    · rw [if_neg h]
      rfl
  have htext0 : text.getD 0 ' ' ∈ text := by
    cases text with
    | nil => exact absurd rfl hne
    | cons a l => simp
  have hhead : text.getD 0 ' ' ≠ ' ' := hns _ htext0
  have hnall : back.all (fun row => row.all (fun ch => ch = ' ')) = false := by
    by_contra hcon
    rw [Bool.not_eq_false] at hcon
    have hlen4 : back.length = displayHeight := by
      rw [hbackeq, List.length_set, hblen]
    have hy4 : y < back.length := by omega
    have hgy : back[y] = wrow := by
      rw [← List.getD_eq_getElem back [] hy4, hgetrow]
    have hmem : wrow ∈ back := hgy ▸ List.getElem_mem hy4
    have hrall := (List.all_eq_true.mp hcon) wrow hmem
    have hxl : x < wrow.length := by omega
    have hcellmem : wrow.getD x ' ' ∈ wrow := by
      rw [List.getD_eq_getElem wrow ' ' hxl]
      exact List.getElem_mem hxl
    have hsp := (List.all_eq_true.mp hrall) _ hcellmem
    simp only [decide_eq_true_eq] at hsp
    have hcx : wrow.getD x ' ' = text.getD 0 ' ' := by
      rw [hwrow, writeChars_getD text x _ x hrowlen hfit]
      rw [if_pos ⟨le_rfl, by omega⟩, Nat.sub_self]
    exact hhead (hcx ▸ hsp)
  have hfind_y : find_contiguous_changes blankBuffer back y = [(x, x + text.length)] := by
    unfold find_contiguous_changes
    have hcong : ∀ i, i < displayWidth →
        (fun i => decide (getCell blankBuffer y i ≠ getCell back y i)) i
          = oneRangePattern x (x + text.length) i := by
      intro i _
      show decide (getCell blankBuffer y i ≠ getCell back y i)
          = oneRangePattern x (x + text.length) i
      rw [hblank_cell y i, hcell_y i]
      simp only [oneRangePattern]
      by_cases hr : x ≤ i ∧ i < x + text.length
      · rw [if_pos hr]
        have hmem2 : text.getD (i - x) ' ' ∈ text := by
          have hil : i - x < text.length := by omega
          rw [List.getD_eq_getElem text ' ' hil]
          exact List.getElem_mem hil
        have hne3 : text.getD (i - x) ' ' ≠ ' ' := hns _ hmem2
        exact decide_eq_decide.mpr ⟨fun _ => hr, fun _ hh => hne3 hh.symm⟩
      · rw [if_neg hr]
        exact decide_eq_decide.mpr ⟨fun hcc => absurd rfl hcc, fun hh => absurd hh hr⟩
    rw [changesOfPattern_congr _ (oneRangePattern x (x + text.length)) hcong]
    exact oneRange_changes x (by omega) (x + text.length) (by omega) (by omega)
  have hfind_ne : ∀ y2, y2 ≠ y → find_contiguous_changes blankBuffer back y2 = [] := by
    intro y2 hne2
    apply find_changes_nil
    intro i _
    rw [hcell_ne y2 i hne2]
  have hsnd : (commit_display blankBuffer back).2
      = buildBuffer (fun y2 i => getCell back y2 i) := by
    unfold commit_display
    rw [hnall]
    simp only [Bool.false_eq_true, if_false]
  constructor
  · unfold commit_display
    rw [hnall]
    simp only [Bool.false_eq_true, if_false]
    rw [show List.range displayHeight = List.range 4 from rfl]
    rw [flatMap_range4_single _ y (by omega)
      (fun y2 _ hne2 => by rw [hfind_ne y2 hne2]; rfl)]
    rw [hfind_y]
    simp only [List.map_cons, List.map_nil]
    rw [hgetrow, hwrow, writeChars_slice text x _ hrowlen hfit]
  · rw [hsnd]
    apply commit_display_second _ back hnall
    intro y2 i hy2 hi
    exact getCell_buildBuffer _ y2 i hy2 hi

/-- Counterexample to C6 as stated: the text " A" is in range and contains a
non-space character, yet the commit after writing it at (0,0) emits
LcdWrite(1,0,"A") (the diff engine skips the unchanged leading space), not
LcdWrite(0,0," A"). -/
theorem commit_minimality_counterexample :
    (commit_display blankBuffer (write_display blankBuffer 0 0 spaceAText)).1
      = [OutgoingMessage.lcdWrite 1 0 textA]
    ∧ (commit_display blankBuffer (write_display blankBuffer 0 0 spaceAText)).1
      ≠ [OutgoingMessage.lcdWrite 0 0 spaceAText] := by
  constructor <;> decide

/-- Witness for the amended commit-minimality theorem at (0,0) with the
text Hi. -/
theorem commit_minimality_amended_witness :
    (commit_display blankBuffer (write_display blankBuffer 0 0 s3Text)).1
      = [OutgoingMessage.lcdWrite 0 0 s3Text]
    ∧ (commit_display (commit_display blankBuffer (write_display blankBuffer 0 0 s3Text)).2
        (write_display blankBuffer 0 0 s3Text)).1 = [] :=
  commit_minimality_amended 0 0 s3Text (by decide) (by decide) (by decide) (by decide)
    (by decide)

/-! ## Mapping engine theorems -/

/-- Mutual exclusivity of a mapping matrix: within any one bank view of a
column, at most one row is mapped. -/
def MutexInv (m : ℕ → ℕ → Bool) : Prop :=
  ∀ c r1 r2, r1 / 8 = r2 / 8 → m r1 c = true → m r2 c = true → r1 = r2

theorem mutexInv_mono (m1 m2 : ℕ → ℕ → Bool)
    (h : ∀ r c, m2 r c = true → m1 r c = true) (hm : MutexInv m1) : MutexInv m2 :=
  fun c r1 r2 hdiv h1 h2 => hm c r1 r2 hdiv (h r1 c h1) (h r2 c h2)

theorem clear_fold_eq (s : MapState) (actualR actualC : ℕ) :
    ∀ (l : List ℕ) (m : ℕ → ℕ → Bool) (r c : ℕ),
      (l.foldl (fun m2 rIter =>
        if s.lfoBank * 8 + rIter ≠ actualR ∧ s.lfoBank * 8 + rIter < 32 ∧
            m2 (s.lfoBank * 8 + rIter) actualC = true then
          setB2 m2 (s.lfoBank * 8 + rIter) actualC false
        else m2) m) r c
      = if c = actualC ∧ r ≠ actualR ∧ r < 32 ∧ (∃ j ∈ l, r = s.lfoBank * 8 + j) then false
        else m r c := by
  intro l
  induction l with
  | nil =>
    intro m r c
    simp
  | cons j rest ih =>
    intro m r c
    rw [List.foldl_cons, ih]
    by_cases hin : c = actualC ∧ r ≠ actualR ∧ r < 32 ∧ ∃ j2 ∈ rest, r = s.lfoBank * 8 + j2
    · rw [if_pos hin]
      obtain ⟨hc, hra, hr32, j2, hj2, he⟩ := hin
      have hB : c = actualC ∧ r ≠ actualR ∧ r < 32 ∧ ∃ j2 ∈ j :: rest, r = s.lfoBank * 8 + j2 :=
        ⟨hc, hra, hr32, j2, List.mem_cons_of_mem j hj2, he⟩
      rw [if_pos hB]
    · rw [if_neg hin]
      by_cases hj : c = actualC ∧ r ≠ actualR ∧ r < 32 ∧ r = s.lfoBank * 8 + j
      · obtain ⟨hc, hra, hr32, hrj⟩ := hj
        have hB : c = actualC ∧ r ≠ actualR ∧ r < 32 ∧ ∃ j2 ∈ j :: rest, r = s.lfoBank * 8 + j2 :=
          ⟨hc, hra, hr32, j, List.mem_cons_self j rest, hrj⟩
        rw [if_pos hB]
        by_cases hmv : m (s.lfoBank * 8 + j) actualC = true
        · have hcond : s.lfoBank * 8 + j ≠ actualR ∧ s.lfoBank * 8 + j < 32 ∧
              m (s.lfoBank * 8 + j) actualC = true := ⟨hrj ▸ hra, hrj ▸ hr32, hmv⟩
          rw [if_pos hcond]
          show (if r = s.lfoBank * 8 + j ∧ c = actualC then false else m r c) = false
          rw [if_pos ⟨hrj, hc⟩]
        · have hcond2 : ¬(s.lfoBank * 8 + j ≠ actualR ∧ s.lfoBank * 8 + j < 32 ∧
              m (s.lfoBank * 8 + j) actualC = true) := fun hh => hmv hh.2.2
          rw [if_neg hcond2]
          rw [hc, hrj]
          simp only [Bool.not_eq_true] at hmv
          exact hmv
      · have hB : ¬(c = actualC ∧ r ≠ actualR ∧ r < 32 ∧
            ∃ j2 ∈ j :: rest, r = s.lfoBank * 8 + j2) := by
          intro hh
          obtain ⟨hc, hra, hr32, j2, hj2, he⟩ := hh
          rcases List.mem_cons.mp hj2 with rfl | hmem
          · exact hj ⟨hc, hra, hr32, he⟩
          · exact hin ⟨hc, hra, hr32, j2, hmem, he⟩
        rw [if_neg hB]
        by_cases hcond : s.lfoBank * 8 + j ≠ actualR ∧ s.lfoBank * 8 + j < 32 ∧
            m (s.lfoBank * 8 + j) actualC = true
        · rw [if_pos hcond]
          show (if r = s.lfoBank * 8 + j ∧ c = actualC then false else m r c) = m r c
          have hne4 : ¬(r = s.lfoBank * 8 + j ∧ c = actualC) := by
            intro hh
            exact hj ⟨hh.2, by rw [hh.1]; exact hcond.1, by rw [hh.1]; exact hcond.2.1, hh.1⟩
          rw [if_neg hne4]
        · rw [if_neg hcond]

theorem gridPress_mapping_off (s : MapState) (rPv cPv : ℕ)
    (hb : s.effectBank * 8 + cPv < 32 ∧ s.lfoBank * 8 + rPv < 32)
    (hon : s.mapping (s.lfoBank * 8 + rPv) (s.effectBank * 8 + cPv) = true) :
    (gridPress s rPv cPv).mapping
      = setB2 s.mapping (s.lfoBank * 8 + rPv) (s.effectBank * 8 + cPv) false := by
  simp only [gridPress]
  rw [if_pos hb, if_pos hon]

theorem gridPress_mapping_on (s : MapState) (rPv cPv : ℕ)
    (hb : s.effectBank * 8 + cPv < 32 ∧ s.lfoBank * 8 + rPv < 32)
    (hoff : s.mapping (s.lfoBank * 8 + rPv) (s.effectBank * 8 + cPv) = false) :
    (gridPress s rPv cPv).mapping
      = setB2 ((List.range 8).foldl (fun m2 rIter =>
          if s.lfoBank * 8 + rIter ≠ s.lfoBank * 8 + rPv ∧ s.lfoBank * 8 + rIter < 32 ∧
              m2 (s.lfoBank * 8 + rIter) (s.effectBank * 8 + cPv) = true then
            setB2 m2 (s.lfoBank * 8 + rIter) (s.effectBank * 8 + cPv) false
          else m2) s.mapping)
        (s.lfoBank * 8 + rPv) (s.effectBank * 8 + cPv) true := by
  simp only [gridPress]
  rw [if_pos hb, if_neg (by rw [hoff]; exact Bool.false_ne_true)]

theorem gridPress_mutex (s : MapState) (rPv cPv : ℕ) (hr8 : rPv < 8)
    (hm : MutexInv s.mapping) : MutexInv (gridPress s rPv cPv).mapping := by
  by_cases hb : s.effectBank * 8 + cPv < 32 ∧ s.lfoBank * 8 + rPv < 32
  · by_cases hon : s.mapping (s.lfoBank * 8 + rPv) (s.effectBank * 8 + cPv) = true
    · rw [gridPress_mapping_off s rPv cPv hb hon]
      apply mutexInv_mono s.mapping _ _ hm
      intro r c h
      simp only [setB2] at h
      by_cases hp : r = s.lfoBank * 8 + rPv ∧ c = s.effectBank * 8 + cPv
      · rw [if_pos hp] at h
        exact absurd h Bool.false_ne_true
      · rw [if_neg hp] at h
        exact h
    · have hoff : s.mapping (s.lfoBank * 8 + rPv) (s.effectBank * 8 + cPv) = false := by
        simp only [Bool.not_eq_true] at hon
        exact hon
      rw [gridPress_mapping_on s rPv cPv hb hoff]
      have hbank : s.lfoBank * 8 + rPv < 32 := hb.2
      have hchar : ∀ r c2, setB2 ((List.range 8).foldl (fun m2 rIter =>
            if s.lfoBank * 8 + rIter ≠ s.lfoBank * 8 + rPv ∧ s.lfoBank * 8 + rIter < 32 ∧
                m2 (s.lfoBank * 8 + rIter) (s.effectBank * 8 + cPv) = true then
              setB2 m2 (s.lfoBank * 8 + rIter) (s.effectBank * 8 + cPv) false
            else m2) s.mapping)
          (s.lfoBank * 8 + rPv) (s.effectBank * 8 + cPv) true r c2
          = if r = s.lfoBank * 8 + rPv ∧ c2 = s.effectBank * 8 + cPv then true
            else if c2 = s.effectBank * 8 + cPv ∧ r ≠ s.lfoBank * 8 + rPv ∧ r < 32 ∧
                ∃ j ∈ List.range 8, r = s.lfoBank * 8 + j then false
            else s.mapping r c2 := by
        intro r c2
        show (if r = s.lfoBank * 8 + rPv ∧ c2 = s.effectBank * 8 + cPv then true
          else ((List.range 8).foldl _ s.mapping) r c2) = _
        by_cases hp : r = s.lfoBank * 8 + rPv ∧ c2 = s.effectBank * 8 + cPv
        · rw [if_pos hp, if_pos hp]
        · rw [if_neg hp, if_neg hp, clear_fold_eq s (s.lfoBank * 8 + rPv) (s.effectBank * 8 + cPv)]
      intro c r1 r2 hdiv h1 h2
      rw [hchar] at h1 h2
      have hdivaR : (s.lfoBank * 8 + rPv) / 8 = s.lfoBank := by omega
      by_cases hc : c = s.effectBank * 8 + cPv
      · by_cases h1a : r1 = s.lfoBank * 8 + rPv
        · by_cases h2a : r2 = s.lfoBank * 8 + rPv
          · rw [h1a, h2a]
          · rw [if_neg (fun hh => h2a hh.1)] at h2
            by_cases hcond2 : c = s.effectBank * 8 + cPv ∧ r2 ≠ s.lfoBank * 8 + rPv ∧
                r2 < 32 ∧ ∃ j ∈ List.range 8, r2 = s.lfoBank * 8 + j
            · rw [if_pos hcond2] at h2
              exact absurd h2 Bool.false_ne_true
            · exfalso
              apply hcond2
              refine ⟨hc, h2a, ?_, r2 % 8, List.mem_range.mpr (by omega), ?_⟩
              · have : r2 / 8 = s.lfoBank := by rw [← hdiv, h1a]; exact hdivaR
                omega
              · have : r2 / 8 = s.lfoBank := by rw [← hdiv, h1a]; exact hdivaR
                omega
        · by_cases h2a : r2 = s.lfoBank * 8 + rPv
          · rw [if_neg (fun hh => h1a hh.1)] at h1
            by_cases hcond1 : c = s.effectBank * 8 + cPv ∧ r1 ≠ s.lfoBank * 8 + rPv ∧
                r1 < 32 ∧ ∃ j ∈ List.range 8, r1 = s.lfoBank * 8 + j
            · rw [if_pos hcond1] at h1
              exact absurd h1 Bool.false_ne_true
            · exfalso
              apply hcond1
              refine ⟨hc, h1a, ?_, r1 % 8, List.mem_range.mpr (by omega), ?_⟩
              · have : r1 / 8 = s.lfoBank := by rw [hdiv, h2a]; exact hdivaR
                omega
              · have : r1 / 8 = s.lfoBank := by rw [hdiv, h2a]; exact hdivaR
                omega
          · rw [if_neg (fun hh => h1a hh.1)] at h1
            rw [if_neg (fun hh => h2a hh.1)] at h2
            have hm1 : s.mapping r1 c = true := by
              by_cases hcond1 : c = s.effectBank * 8 + cPv ∧ r1 ≠ s.lfoBank * 8 + rPv ∧
                  r1 < 32 ∧ ∃ j ∈ List.range 8, r1 = s.lfoBank * 8 + j
              · rw [if_pos hcond1] at h1
                exact absurd h1 Bool.false_ne_true
              · rw [if_neg hcond1] at h1
                exact h1
            have hm2 : s.mapping r2 c = true := by
              by_cases hcond2 : c = s.effectBank * 8 + cPv ∧ r2 ≠ s.lfoBank * 8 + rPv ∧
                  r2 < 32 ∧ ∃ j ∈ List.range 8, r2 = s.lfoBank * 8 + j
              · rw [if_pos hcond2] at h2
                exact absurd h2 Bool.false_ne_true
              · rw [if_neg hcond2] at h2
                exact h2
            exact hm c r1 r2 hdiv hm1 hm2
      · rw [if_neg (fun hh => hc hh.2), if_neg (fun hh => hc hh.1)] at h1
        rw [if_neg (fun hh => hc hh.2), if_neg (fun hh => hc hh.1)] at h2
        exact hm c r1 r2 hdiv h1 h2
  · have : gridPress s rPv cPv = s := by
      simp only [gridPress]
      rw [if_neg hb]
    rw [this]
    exact hm

theorem findGridPos_bounds (note : ℕ) (p : ℕ × ℕ) (h : findGridPos note = some p) :
    p.1 < 8 ∧ p.2 < 8 := by
  have hmem : p ∈ gridCells := List.mem_of_find?_eq_some h
  unfold gridCells at hmem
  rw [List.mem_flatMap] at hmem
  obtain ⟨r, hr, hmem2⟩ := hmem
  rw [List.mem_map] at hmem2
  obtain ⟨c2, hc2, rfl⟩ := hmem2
  exact ⟨List.mem_range.mp hr, List.mem_range.mp hc2⟩

theorem process_midi_mutex (msg : List ℕ) (s : MapState)
    (hm : MutexInv s.mapping) : MutexInv (process_midi_message s msg).mapping := by
  simp only [process_midi_message]
  by_cases h0 : msg = []
  · rw [if_pos h0]
    exact hm
  rw [if_neg h0]
  by_cases hst : (msg.getD 0 0) &&& 240 = 144
  · rw [if_pos hst]
    by_cases hv : 0 < (if 2 < msg.length then msg.getD 2 0 else 0)
    · rw [if_pos hv]
      by_cases hlfo : 82 ≤ (if 1 < msg.length then msg.getD 1 0 else 0) ∧
          (if 1 < msg.length then msg.getD 1 0 else 0) ≤ 85
      · rw [if_pos hlfo]
        exact hm
      · rw [if_neg hlfo]
        by_cases heff : 86 ≤ (if 1 < msg.length then msg.getD 1 0 else 0) ∧
            (if 1 < msg.length then msg.getD 1 0 else 0) ≤ 89
        · rw [if_pos heff]
          exact hm
        · rw [if_neg heff]
          cases hfg : findGridPos (if 1 < msg.length then msg.getD 1 0 else 0) with
          | none => exact hm
          | some p =>
            exact gridPress_mutex s p.1 p.2
              (findGridPos_bounds (if 1 < msg.length then msg.getD 1 0 else 0) p hfg).1 hm
    · rw [if_neg hv]
      exact hm
  · rw [if_neg hst]
    by_cases hcc : (msg.getD 0 0) &&& 240 = 176
    · rw [if_pos hcc]
      by_cases hfr : 48 ≤ (if 1 < msg.length then msg.getD 1 0 else 0) ∧
          (if 1 < msg.length then msg.getD 1 0 else 0) ≤ 55
      · rw [if_pos hfr]
        simp only [faderCC]
        by_cases hcol : s.effectBank * 8 + ((if 1 < msg.length then msg.getD 1 0 else 0) - 48) < 32
        · rw [if_pos hcol]
          exact hm
        · rw [if_neg hcol]
          exact hm
      · rw [if_neg hfr]
        exact hm
    · rw [if_neg hcc]
      exact hm

theorem foldl_midi_mutex (msgs : List (List ℕ)) :
    ∀ (s : MapState), MutexInv s.mapping →
      MutexInv ((msgs.foldl process_midi_message s).mapping) := by
  induction msgs with
  | nil => intro s hs; exact hs
  | cons msg rest ih =>
    intro s hs
    rw [List.foldl_cons]
    exact ih _ (process_midi_mutex msg s hs)

/-- C1: mapping mutual exclusivity.  After any sequence of MIDI messages
processed from the startup state, every LFO-bank view of every effect
column carries at most one active mapping row; a press that turns a cell on
clears every other row of the current bank view in that column; and the S4
scenario (press grid cell (0,0), then (1,0), i.e. notes 56 then 48) leaves
mapping[1][0] on and mapping[0][0] off. -/
theorem mapping_mutual_exclusivity :
    (∀ (msgs : List (List ℕ)) (c b r1 r2 : ℕ), c < 32 → b < 4 → r1 < 32 → r2 < 32 →
      r1 / 8 = b → r2 / 8 = b →
      (msgs.foldl process_midi_message initMapState).mapping r1 c = true →
      (msgs.foldl process_midi_message initMapState).mapping r2 c = true → r1 = r2)
    ∧ (∀ (s : MapState) (rPv cPv : ℕ), rPv < 8 →
        s.lfoBank * 8 + rPv < 32 → s.effectBank * 8 + cPv < 32 →
        s.mapping (s.lfoBank * 8 + rPv) (s.effectBank * 8 + cPv) = false →
        ∀ r2, r2 ≠ s.lfoBank * 8 + rPv → s.lfoBank * 8 ≤ r2 → r2 < s.lfoBank * 8 + 8 →
          (gridPress s rPv cPv).mapping r2 (s.effectBank * 8 + cPv) = false)
    ∧ ([[144, 56, 127], [144, 48, 127]].foldl process_midi_message initMapState).mapping 1 0
        = true
    ∧ ([[144, 56, 127], [144, 48, 127]].foldl process_midi_message initMapState).mapping 0 0
        = false := by
  refine ⟨?_, ?_, by decide, by decide⟩
  · intro msgs c b r1 r2 _ _ _ _ hr1 hr2 h1 h2
    have hinit : MutexInv initMapState.mapping := by
      intro c2 ra rb _ h1a _
      exact absurd h1a Bool.false_ne_true
    exact foldl_midi_mutex msgs initMapState hinit c r1 r2 (by rw [hr1, hr2]) h1 h2
  · intro s rPv cPv hr8 haR haC hoff r2 hne hlo hhi
    rw [gridPress_mapping_on s rPv cPv ⟨haC, haR⟩ hoff]
    simp only [setB2]
    rw [if_neg (fun hh => hne hh.1)]
    rw [clear_fold_eq s (s.lfoBank * 8 + rPv) (s.effectBank * 8 + cPv)]
    have hcond : s.effectBank * 8 + cPv = s.effectBank * 8 + cPv ∧ r2 ≠ s.lfoBank * 8 + rPv ∧
        r2 < 32 ∧ ∃ j ∈ List.range 8, r2 = s.lfoBank * 8 + j :=
      ⟨rfl, hne, by omega, r2 - s.lfoBank * 8, List.mem_range.mpr (by omega), by omega⟩
    rw [if_pos hcond]

/-- Witness for the mutual-exclusivity theorem: instantiated on the S4
message sequence (row 1 of bank 0 in column 0), and on a concrete press at
the startup state clearing row 1 of the bank view. -/
theorem mapping_mutual_exclusivity_witness :
    (1 : ℕ) = 1 ∧ (gridPress initMapState 0 0).mapping 1 0 = false :=
  ⟨mapping_mutual_exclusivity.1 [[144, 56, 127], [144, 48, 127]] 0 0 1 1 (by decide) (by decide)
      (by decide) (by decide) (by decide) (by decide) (by decide) (by decide),
   mapping_mutual_exclusivity.2.1 initMapState 0 0 (by decide) (by decide) (by decide)
      (by decide) 1 (by decide) (by decide) (by decide)⟩

theorem find_range4_eq_some (p : ℕ → Bool) (b0 : ℕ) (hb : b0 < 4) (hp : p b0 = true)
    (hmin : ∀ b, b < b0 → p b = false) : (List.range 4).find? p = some b0 := by
  have hr : List.range 4 = [0, 1, 2, 3] := rfl
  rw [hr]
  interval_cases b0
  · rw [List.find?_cons_of_pos _ hp]
  · rw [List.find?_cons_of_neg _ (by rw [hmin 0 (by omega)]; exact Bool.false_ne_true),
      List.find?_cons_of_pos _ hp]
  · rw [List.find?_cons_of_neg _ (by rw [hmin 0 (by omega)]; exact Bool.false_ne_true),
      List.find?_cons_of_neg _ (by rw [hmin 1 (by omega)]; exact Bool.false_ne_true),
      List.find?_cons_of_pos _ hp]
  · rw [List.find?_cons_of_neg _ (by rw [hmin 0 (by omega)]; exact Bool.false_ne_true),
      List.find?_cons_of_neg _ (by rw [hmin 1 (by omega)]; exact Bool.false_ne_true),
      List.find?_cons_of_neg _ (by rw [hmin 2 (by omega)]; exact Bool.false_ne_true),
      List.find?_cons_of_pos _ hp]

/-- C2: fader precedence.  On a sender tick, if bank `b0` is the smallest
LFO bank with an active fader override for column `col`, then the computed
value for that column is exactly `fader_override_value[b0][col]`,
independent of the mapping matrix and LFO values (the state `s` is
arbitrary), and any `/effect/<col+1>` message shipped that tick carries
that value. -/
theorem fader_precedence :
    ∀ (s : MapState) (sent : ℕ → ℚ) (col b0 : ℕ), col < 32 → b0 < 4 →
      s.faderActive b0 col = true → (∀ b, b < b0 → s.faderActive b col = false) →
      nextValues s sent col = s.faderValue b0 col
      ∧ ∀ v, (col + 1, v) ∈ tick_messages s sent → v = s.faderValue b0 col := by
  intro s sent col b0 hcol hb0 hact hmin
  have hfind : (List.range 4).find? (fun b => s.faderActive b col) = some b0 :=
    find_range4_eq_some _ b0 hb0 hact hmin
  have hval : nextValues s sent col = s.faderValue b0 col := by
    unfold nextValues computeCol
    rw [hfind]
  refine ⟨hval, ?_⟩
  intro v hv
  unfold tick_messages at hv
  rw [List.mem_filterMap] at hv
  obtain ⟨i, _, hsome⟩ := hv
  by_cases hcond : machineEps < |nextValues s sent i - sent i|
  · rw [if_pos hcond] at hsome
    have hpair := Option.some.inj hsome
    have hi : i = col := by
      have := congrArg Prod.fst hpair
      simp at this
      omega
    have hval2 := congrArg Prod.snd hpair
    simp at hval2
    rw [← hval2, hi, hval]
  · rw [if_neg hcond] at hsome
    exact absurd hsome (by simp)

/-- Witness for fader precedence: after selecting LFO bank 2 and moving
fader CC 48 to 64, the computed value of column 0 is 64/127. -/
theorem fader_precedence_witness :
    nextValues ([[144, 84, 127], [176, 48, 64]].foldl process_midi_message initMapState)
        (fun _ => 0) 0
      = ([[144, 84, 127], [176, 48, 64]].foldl process_midi_message initMapState).faderValue 2 0
    ∧ ∀ v, (0 + 1, v) ∈ tick_messages
        ([[144, 84, 127], [176, 48, 64]].foldl process_midi_message initMapState) (fun _ => 0) →
      v = ([[144, 84, 127], [176, 48, 64]].foldl process_midi_message initMapState).faderValue 2 0 :=
  fader_precedence ([[144, 84, 127], [176, 48, 64]].foldl process_midi_message initMapState)
    (fun _ => 0) 0 2 (by decide) (by decide) (by decide) (by decide)

theorem filterMap_key_once {β : Type} (g : ℕ → Option (ℕ × β))
    (hg : ∀ i m, g i = some m → m.1 = i + 1) (k : ℕ) :
    ∀ (l : List ℕ), l.Nodup →
      (((l.filterMap g).filter (fun m => m.1 = k)).length ≤ 1) := by
  intro l
  induction l with
  | nil => intro _; simp
  | cons a l ih =>
    intro hnd
    rw [List.filterMap_cons]
    cases hga : g a with
    | none => exact ih (List.Nodup.of_cons hnd)
    | some m =>
      rw [List.filter_cons]
      by_cases hmk : m.1 = k
      · rw [if_pos (by simp [hmk])]
        simp only [List.length_cons]
        have hrest : (l.filterMap g).filter (fun m2 => m2.1 = k) = [] := by
          rw [List.filter_eq_nil_iff]
          intro m2 hm2
          rw [List.mem_filterMap] at hm2
          obtain ⟨i, hi, hgi⟩ := hm2
          have hk2 := hg i m2 hgi
          have hka := hg a m hga
          simp only [decide_eq_true_eq]
          intro heq
          have hia : i = a := by omega
          subst hia
          exact (List.nodup_cons.mp hnd).1 hi
        rw [hrest]
        simp
      · rw [if_neg (by simp [hmk])]
        exact ih (List.Nodup.of_cons hnd)

/-- C3: change-only send.  On any sender tick, the bundle contains at most
one `/effect/<col+1>` message per column, and a message for a column is
included exactly when the recomputed value differs from the last sent value
by more than machine epsilon (f32 values modelled as exact rationals). -/
theorem change_only_send :
    ∀ (s : MapState) (sent : ℕ → ℚ),
      (∀ col : ℕ, ((tick_messages s sent).filter (fun m => m.1 = col + 1)).length ≤ 1)
      ∧ (∀ col, col < 32 →
          ((∃ v, (col + 1, v) ∈ tick_messages s sent)
            ↔ machineEps < |nextValues s sent col - sent col|)) := by
  intro s sent
  constructor
  · intro col
    apply filterMap_key_once _ _ (col + 1) (List.range 32) (List.nodup_range 32)
    intro i m hsome
    by_cases hcond : machineEps < |nextValues s sent i - sent i|
    · rw [if_pos hcond] at hsome
      have := Option.some.inj hsome
      rw [← this]
    · rw [if_neg hcond] at hsome
      exact absurd hsome (by simp)
  · intro col hcol
    constructor
    · rintro ⟨v, hv⟩
      unfold tick_messages at hv
      rw [List.mem_filterMap] at hv
      obtain ⟨i, _, hsome⟩ := hv
      by_cases hcond : machineEps < |nextValues s sent i - sent i|
      · rw [if_pos hcond] at hsome
        have hpair := Option.some.inj hsome
        have hi : i = col := by
          have := congrArg Prod.fst hpair
          simp at this
          omega
        rw [← hi]
        exact hcond
      · rw [if_neg hcond] at hsome
        exact absurd hsome (by simp)
    · intro hcond
      refine ⟨nextValues s sent col, ?_⟩
      unfold tick_messages
      rw [List.mem_filterMap]
      exact ⟨col, List.mem_range.mpr hcol, by rw [if_pos hcond]⟩

/-- Witness for change-only send at the startup state: column 0 has equal
computed and sent values (both frozen), so no message is included, and at
most one message per column holds trivially. -/
theorem change_only_send_witness :
    (((tick_messages initMapState (fun _ => 0)).filter (fun m => m.1 = 0 + 1)).length ≤ 1)
    ∧ ((∃ v, (0 + 1, v) ∈ tick_messages initMapState (fun _ => 0))
        ↔ machineEps < |nextValues initMapState (fun _ => 0) 0 - (fun _ => (0 : ℚ)) 0|) :=
  ⟨(change_only_send initMapState (fun _ => 0)).1 0,
   (change_only_send initMapState (fun _ => 0)).2 0 (by decide)⟩

/-! ## Sender-monitor theorems -/

theorem report_success_in_window (t cu : ℤ) (st : CtrlStatus)
    (hcu : st.cooldown_until = some cu) (hlt : t < cu) :
    report_controller_success t st = { st with last_success := some t } := by
  simp only [report_controller_success, hcu]
  rw [if_pos hlt]

theorem report_success_after (t cu : ℤ) (st : CtrlStatus)
    (hcu : st.cooldown_until = some cu) (hge : cu ≤ t) :
    report_controller_success t st
      = { st with last_success := some t, is_routable := true, is_connecting := false,
                  last_error := none, cooldown_until := none } := by
  simp only [report_controller_success, hcu]
  rw [if_neg (by omega)]

theorem tick_in_window (t cu : ℤ) (st : CtrlStatus)
    (hcu : st.cooldown_until = some cu) (hlt : t < cu) :
    update_controller_status t st = st := by
  simp only [update_controller_status, hcu]
  rw [if_neg (fun hh => by omega)]

theorem tick_after (t cu : ℤ) (st : CtrlStatus)
    (hcu : st.cooldown_until = some cu) (hge : cu ≤ t) (hconn : st.is_connecting = true) :
    update_controller_status t st
      = { st with is_routable := true, is_connecting := false, cooldown_until := none } := by
  simp only [update_controller_status, hcu]
  rw [if_pos ⟨hge, hconn⟩]

theorem window_fold_invariant (cu : ℤ) :
    ∀ (evs : List MonEvent) (st : CtrlStatus),
      st.is_routable = false → st.is_connecting = true → st.cooldown_until = some cu →
      (∀ e ∈ evs, e.time < cu) →
      ((evs.foldl applyMonEvent st).is_routable = false
        ∧ (evs.foldl applyMonEvent st).is_connecting = true
        ∧ (evs.foldl applyMonEvent st).cooldown_until = some cu) := by
  intro evs
  induction evs with
  | nil => intro st h1 h2 h3 _; exact ⟨h1, h2, h3⟩
  | cons e rest ih =>
    intro st h1 h2 h3 htimes
    rw [List.foldl_cons]
    have hte : e.time < cu := htimes e (List.mem_cons_self e rest)
    have hrest : ∀ e2 ∈ rest, MonEvent.time e2 < cu :=
      fun e2 he2 => htimes e2 (List.mem_cons_of_mem e he2)
    cases e with
    | success t =>
      have ht : t < cu := hte
      rw [show applyMonEvent st (MonEvent.success t) = report_controller_success t st from rfl]
      rw [report_success_in_window t cu st h3 ht]
      exact ih _ h1 h2 h3 hrest
    | tick t =>
      have ht : t < cu := hte
      rw [show applyMonEvent st (MonEvent.tick t) = update_controller_status t st from rfl]
      rw [tick_in_window t cu st h3 ht]
      exact ih _ h1 h2 h3 hrest

/-- C4: cooldown gating.  After a failure at `t0` arms a cooldown of length
`T`, any sequence of success reports and periodic status updates all at
times strictly before `t0 + T` leaves the controller non-routable and
connecting with the cooldown unchanged (successes still update
`last_success`); the first success report, or the first status update, at
a time at or after `t0 + T` promotes to routable, not connecting, with the
cooldown cleared.  In particular `is_routable` is never true strictly
inside the cooldown window. -/
theorem cooldown_gating :
    ∀ (t0 T : ℤ) (err : String) (st0 : CtrlStatus) (evs : List MonEvent),
      (∀ e ∈ evs, e.time < t0 + T) →
      ((evs.foldl applyMonEvent (report_controller_failure t0 T err st0)).is_routable = false
        ∧ (evs.foldl applyMonEvent (report_controller_failure t0 T err st0)).is_connecting = true
        ∧ (evs.foldl applyMonEvent (report_controller_failure t0 T err st0)).cooldown_until
            = some (t0 + T))
      ∧ (∀ t, t < t0 + T →
          report_controller_success t
              (evs.foldl applyMonEvent (report_controller_failure t0 T err st0))
            = { evs.foldl applyMonEvent (report_controller_failure t0 T err st0) with
                last_success := some t })
      ∧ (∀ t, t0 + T ≤ t →
          ((report_controller_success t
              (evs.foldl applyMonEvent (report_controller_failure t0 T err st0))).is_routable
              = true
            ∧ (report_controller_success t
              (evs.foldl applyMonEvent (report_controller_failure t0 T err st0))).is_connecting
              = false
            ∧ (report_controller_success t
              (evs.foldl applyMonEvent (report_controller_failure t0 T err st0))).cooldown_until
              = none
            ∧ (report_controller_success t
              (evs.foldl applyMonEvent (report_controller_failure t0 T err st0))).last_success
              = some t))
      ∧ (∀ t, t0 + T ≤ t →
          ((update_controller_status t
              (evs.foldl applyMonEvent (report_controller_failure t0 T err st0))).is_routable
              = true
            ∧ (update_controller_status t
              (evs.foldl applyMonEvent (report_controller_failure t0 T err st0))).is_connecting
              = false
            ∧ (update_controller_status t
              (evs.foldl applyMonEvent (report_controller_failure t0 T err st0))).cooldown_until
              = none)) := by
  intro t0 T err st0 evs htimes
  have hfail : (report_controller_failure t0 T err st0).is_routable = false
      ∧ (report_controller_failure t0 T err st0).is_connecting = true
      ∧ (report_controller_failure t0 T err st0).cooldown_until = some (t0 + T) := by
    refine ⟨rfl, rfl, rfl⟩
  obtain ⟨hw1, hw2, hw3⟩ := window_fold_invariant (t0 + T) evs
    (report_controller_failure t0 T err st0) hfail.1 hfail.2.1 hfail.2.2 htimes
  refine ⟨⟨hw1, hw2, hw3⟩, ?_, ?_, ?_⟩
  · intro t ht
    exact report_success_in_window t (t0 + T) _ hw3 ht
  · intro t ht
    rw [report_success_after t (t0 + T) _ hw3 ht]
    exact ⟨rfl, rfl, rfl, rfl⟩
  · intro t ht
    rw [tick_after t (t0 + T) _ hw3 ht hw2]
    exact ⟨rfl, rfl, rfl⟩

/-- Witness for cooldown gating: register at time 0, fail at time 0 with a
30-tick cooldown, observe successes at times 10 and 20 (still connecting),
then promote at time 31. -/
theorem cooldown_gating_witness :
    (([MonEvent.success 10, MonEvent.success 20].foldl applyMonEvent
        (report_controller_failure 0 30 errRefused (register_controller 0))).is_routable = false
      ∧ ([MonEvent.success 10, MonEvent.success 20].foldl applyMonEvent
        (report_controller_failure 0 30 errRefused (register_controller 0))).is_connecting = true
      ∧ ([MonEvent.success 10, MonEvent.success 20].foldl applyMonEvent
        (report_controller_failure 0 30 errRefused (register_controller 0))).cooldown_until
          = some (0 + 30))
    ∧ ((update_controller_status 31
        ([MonEvent.success 10, MonEvent.success 20].foldl applyMonEvent
          (report_controller_failure 0 30 errRefused (register_controller 0)))).is_routable = true
      ∧ (update_controller_status 31
        ([MonEvent.success 10, MonEvent.success 20].foldl applyMonEvent
          (report_controller_failure 0 30 errRefused (register_controller 0)))).is_connecting
          = false
      ∧ (update_controller_status 31
        ([MonEvent.success 10, MonEvent.success 20].foldl applyMonEvent
          (report_controller_failure 0 30 errRefused (register_controller 0)))).cooldown_until
          = none) :=
  ⟨(cooldown_gating 0 30 errRefused (register_controller 0)
      [MonEvent.success 10, MonEvent.success 20] (by decide)).1,
   (cooldown_gating 0 30 errRefused (register_controller 0)
      [MonEvent.success 10, MonEvent.success 20] (by decide)).2.2.2 31 (by decide)⟩
